import Mathlib

/-!
Verification of the ai-brief-refiner core against its specification.

Shallow embedding conventions:
* Python strings are modelled either as Lean `String` or, where character-level
  algorithms are involved (splitting, stripping, slicing), as `List Char`
  (`String.data` gives the character list of a string).
* Python `float` arithmetic is modelled by exact real arithmetic (`ℝ`);
  `math.log` is `Real.log`.
* Python exceptions are modelled by explicit result types; a function that
  may raise returns a value describing the raise.
* Python `list.sort(key=..., reverse=True)` is a stable descending sort; it is
  modelled by `List.insertionSort` with the relation "left score ≥ right
  score", which is exactly the stable descending sort on pairs.
-/

namespace BriefRefiner

/-! ### Tokenizer (src/rag/vectorstore.py, `VectorStoreManager._tokenize`)

Python: `text.lower()`, then `re.findall(r'\b\w+\b', text)` (maximal runs of
word characters), then keep only words of length > 2.  Word characters are
modelled on the ASCII core of `\w` (alphanumeric or underscore). -/

/-- Word character of the tokenizer's regular expression (ASCII core of `\w`). -/
def isWordChar (c : Char) : Bool := c.isAlphanum || c = '_'

/-- Maximal runs of word characters of a character list; the accumulator holds
the (reversed) run currently being read. -/
def wordRuns (acc : List Char) : List Char → List (List Char)
  | [] => if acc.isEmpty then [] else [acc.reverse]
  | c :: cs =>
    if isWordChar c then wordRuns (c :: acc) cs
    else if acc.isEmpty then wordRuns [] cs
    else acc.reverse :: wordRuns [] cs

/-- Model of `VectorStoreManager._tokenize`: lowercase, split into maximal word
runs, keep words of length > 2. -/
def tokenize (text : String) : List String :=
  ((wordRuns [] (text.data.map Char.toLower)).map fun l => String.mk l).filter
    fun w => 2 < w.length

/-! ### Relevance scorer (src/rag/vectorstore.py, `_calculate_relevance`) -/

/-- Simplified IDF weight of the scorer: `1.0 + log(1.0 + 1.0 / (1.0 + count))`. -/
noncomputable def idfWeight (count : ℕ) : ℝ :=
  1 + Real.log (1 + 1 / (1 + (count : ℝ)))

/-- Contribution of one query token: zero when the token is absent from the
chunk, otherwise `tf * idf` with `tf = count / total_tokens`. -/
noncomputable def tokenContribution (docTokens : List String) (t : String) : ℝ :=
  if docTokens.count t = 0 then 0
  else ((docTokens.count t : ℝ) / (docTokens.length : ℝ)) * idfWeight (docTokens.count t)

/-- Score of a token list against query tokens: zero for an empty token list,
otherwise the sum over all query tokens (duplicates included, as the Python
loop iterates over `query_tokens`). -/
noncomputable def relevanceOfTokens (queryTokens docTokens : List String) : ℝ :=
  if docTokens = [] then 0
  else (queryTokens.map (tokenContribution docTokens)).sum

/-- Model of `VectorStoreManager._calculate_relevance`. -/
noncomputable def calculateRelevance (queryTokens : List String) (docContent : String) : ℝ :=
  relevanceOfTokens queryTokens (tokenize docContent)

/-- Contribution expressed through the occurrence count and the token total. -/
noncomputable def contribVal (c n : ℕ) : ℝ :=
  if c = 0 then 0 else ((c : ℝ) / (n : ℝ)) * idfWeight c

/-! ### Character-list models of the Python string primitives

`str.strip`, `str.split(sep)` and `str.replace(pat, rep)` are modelled on
`List Char`.  Splitting and replacing scan left to right over non-overlapping
occurrences, exactly as the Python methods do; the structural-recursion fuel
is always instantiated with the length of the scanned list, which the scan
never exceeds. -/

/-- Model of `str.strip()`: drop whitespace from both ends. -/
def pyStrip (l : List Char) : List Char :=
  ((l.dropWhile Char.isWhitespace).reverse.dropWhile Char.isWhitespace).reverse

/-- Fuelled scan of `str.split(sep)` for a non-empty separator. -/
def splitSeqF (sep : List Char) : ℕ → List Char → List (List Char)
  | _, [] => [[]]
  | 0, l => [l]
  | fuel + 1, a :: l =>
    if sep.isPrefixOf (a :: l) then
      [] :: splitSeqF sep fuel ((a :: l).drop sep.length)
    else
      match splitSeqF sep fuel l with
      | [] => [[a]]
      | x :: xs => (a :: x) :: xs

/-- Model of `str.split(sep)` (non-empty `sep`). -/
def pySplit (sep l : List Char) : List (List Char) := splitSeqF sep l.length l

/-- Fuelled scan of `str.replace(pat, rep)` for a non-empty pattern. -/
def replaceSeqF (pat rep : List Char) : ℕ → List Char → List Char
  | _, [] => []
  | 0, l => l
  | fuel + 1, a :: l =>
    if pat.isPrefixOf (a :: l) then
      rep ++ replaceSeqF pat rep fuel ((a :: l).drop pat.length)
    else
      a :: replaceSeqF pat rep fuel l

/-- Model of `str.replace(pat, rep)` (non-empty `pat`). -/
def pyReplace (pat rep l : List Char) : List Char := replaceSeqF pat rep l.length l

/-! ### Chunker (src/rag/vectorstore.py, `VectorStoreManager._split_text`) -/

/-- Sentence decomposition of a paragraph:
`para.replace(". ", ".|").split("|")`. -/
def sentenceSplit (para : List Char) : List (List Char) :=
  pySplit ['|'] (pyReplace ['.', ' '] ['.', '|'] para)

/-- The paragraph separator `"\n\n"`. -/
def chunkSep : List Char := ['\n', '\n']

/-- One iteration of the inner sentence-packing loop of `_split_text`; the
state is the pair (emitted chunks, current buffer). -/
def stepSentence (size : ℕ) (st : List (List Char) × List Char) (s : List Char) :
    List (List Char) × List Char :=
  if st.2.length + s.length + 1 ≤ size then
    (st.1, if st.2.isEmpty then s else st.2 ++ ' ' :: s)
  else
    (if st.2.isEmpty then st.1 else st.1 ++ [st.2], s)

/-- One iteration of the outer paragraph loop of `_split_text`. -/
def stepParagraph (size : ℕ) (st : List (List Char) × List Char) (para0 : List Char) :
    List (List Char) × List Char :=
  let para := pyStrip para0
  if para.isEmpty then st
  else if st.2.length + para.length + 2 ≤ size then
    (st.1, if st.2.isEmpty then para else st.2 ++ '\n' :: '\n' :: para)
  else
    let chunks1 := if st.2.isEmpty then st.1 else st.1 ++ [st.2]
    if size < para.length then
      (sentenceSplit para).foldl (stepSentence size) (chunks1, [])
    else
      (chunks1, para)

/-- Model of `VectorStoreManager._split_text` with the configured chunk size. -/
def splitText (size : ℕ) (text : List Char) : List (List Char) :=
  let st := (pySplit chunkSep text).foldl (stepParagraph size) ([], [])
  if st.2.isEmpty then st.1 else st.1 ++ [st.2]

/-- Characters that remain when all whitespace (separator material) is erased. -/
def noWS (l : List Char) : List Char := l.filter fun c => !c.isWhitespace

/-- Concatenated non-whitespace content of a list of fragments. -/
def noWSJoin (ls : List (List Char)) : List Char := (ls.map noWS).flatten

/-- Size discipline of claim C2: a chunk either fits the configured size or is
exactly one oversized unit of some paragraph's sentence decomposition (an
unsplittable paragraph is its own single sentence). -/
abbrev sizeOK (size : ℕ) (paras : List (List Char)) (c : List Char) : Prop :=
  c.length ≤ size ∨ (size < c.length ∧ ∃ p ∈ paras, c ∈ sentenceSplit (pyStrip p))

/-! ### Retrieval index search (src/rag/vectorstore.py, `search`) -/

/-- An indexed chunk record: the dict with keys id, content, source. -/
structure ChunkDoc where
  id : String
  content : String
  source : String

/-- The ChromaDB-shaped search answer: one inner list per query (always
exactly one query here); a metadata entry is modelled by its `source` value. -/
@[ext]
structure SearchResult where
  documents : List (List String)
  metadatas : List (List String)
  distances : List (List ℝ)

/-- The empty search answer: three singleton empty inner lists. -/
def emptySearchResult : SearchResult := ⟨[[]], [[]], [[]]⟩

/-- Scored documents in insertion order, zero scores discarded. -/
noncomputable def scoredDocs (docs : List ChunkDoc) (qt : List String) :
    List (ChunkDoc × ℝ) :=
  (docs.map fun d => (d, calculateRelevance qt d.content)).filter
    fun p => decide (0 < p.2)

/-- Comparison used by `scored_docs.sort(key=lambda x: x[1], reverse=True)`. -/
def scoreRel : ChunkDoc × ℝ → ChunkDoc × ℝ → Prop := fun a b => b.2 ≤ a.2

noncomputable instance : DecidableRel scoreRel :=
  fun a b => Real.decidableLE b.2 a.2

/-- Stable descending sort by score (Python's stable `list.sort` with
`reverse=True`). -/
noncomputable def sortScored (l : List (ChunkDoc × ℝ)) : List (ChunkDoc × ℝ) :=
  List.insertionSort scoreRel l

/-- Model of `VectorStoreManager.search`. -/
noncomputable def search (docs : List ChunkDoc) (query : String) (nResults : ℕ) :
    SearchResult :=
  if docs.isEmpty then emptySearchResult
  else if (tokenize query).isEmpty then emptySearchResult
  else
    let top := (sortScored (scoredDocs docs (tokenize query))).take nResults
    if top.isEmpty then emptySearchResult
    else
      ⟨[top.map fun p => p.1.content], [top.map fun p => p.1.source],
        [top.map fun p => 1 - p.2]⟩

/-- Specification-side ranking order on (insertion index, chunk, score):
higher score first, equal scores by insertion index. -/
def specRankRel : ℕ × ChunkDoc × ℝ → ℕ × ChunkDoc × ℝ → Prop :=
  fun a b => b.2.2 < a.2.2 ∨ (a.2.2 = b.2.2 ∧ a.1 ≤ b.1)

noncomputable instance : DecidableRel specRankRel := fun a b => by
  unfold specRankRel
  infer_instance

/-- Specification-side scored documents, tagged with insertion indices. -/
noncomputable def specScored (docs : List ChunkDoc) (qt : List String) :
    List (ℕ × ChunkDoc × ℝ) :=
  (docs.enum.map fun p => (p.1, p.2, calculateRelevance qt p.2.content)).filter
    fun p => decide (0 < p.2.2)

/-- Specification-side ranking: sort by score descending with ties broken by
insertion index. -/
noncomputable def specRanking (docs : List ChunkDoc) (qt : List String) :
    List (ℕ × ChunkDoc × ℝ) :=
  List.insertionSort specRankRel (specScored docs qt)

/-! ### Brief data and session (src/services/brief_session.py) -/

/-- The `BriefData` dataclass. -/
structure BriefData where
  project_name : String := ""
  project_goal : String := ""
  target_audience : String := ""
  project_type : String := ""
  platform : String := ""
  must_have_features : List String := []
  nice_to_have_features : List String := []
  integrations : List String := []
  references : List String := []
  content_ready : String := ""
  deadline : String := ""
  budget_range : String := ""
  constraints : List String := []
  deliverables : List String := []
  acceptance_criteria : List String := []
  stakeholders : String := ""
  communication_format : String := ""
  risks : List String := []
  open_questions : List String := []
  raw_messages : List String := []
  llm_analysis : String := ""
deriving DecidableEq

/-- Value of a dynamically accessed field (`getattr(self, field_name, None)`). -/
inductive FieldValue where
  | strVal (s : String)
  | listVal (l : List String)
  | noneVal
deriving DecidableEq

/-- Model of `getattr` over the `BriefData` field names. -/
def getattrBriefField (d : BriefData) : String → FieldValue
  | "project_name" => .strVal d.project_name
  | "project_goal" => .strVal d.project_goal
  | "target_audience" => .strVal d.target_audience
  | "project_type" => .strVal d.project_type
  | "platform" => .strVal d.platform
  | "must_have_features" => .listVal d.must_have_features
  | "nice_to_have_features" => .listVal d.nice_to_have_features
  | "integrations" => .listVal d.integrations
  | "references" => .listVal d.references
  | "content_ready" => .strVal d.content_ready
  | "deadline" => .strVal d.deadline
  | "budget_range" => .strVal d.budget_range
  | "constraints" => .listVal d.constraints
  | "deliverables" => .listVal d.deliverables
  | "acceptance_criteria" => .listVal d.acceptance_criteria
  | "stakeholders" => .strVal d.stakeholders
  | "communication_format" => .strVal d.communication_format
  | "risks" => .listVal d.risks
  | "open_questions" => .listVal d.open_questions
  | "raw_messages" => .listVal d.raw_messages
  | "llm_analysis" => .strVal d.llm_analysis
  | _ => .noneVal

/-- Python truth test of `get_missing_required`:
`not value or (isinstance(value, list) and len(value) == 0)`. -/
def isMissingValue : FieldValue → Bool
  | .strVal s => s == ""
  | .listVal l => l.isEmpty
  | .noneVal => true

/-- The `REQUIRED_FIELDS` constant: (field name, display name). -/
def REQUIRED_FIELDS : List (String × String) :=
  [("project_goal", "цель проекта"),
   ("project_type", "тип проекта"),
   ("platform", "платформа")]

/-- The `RECOMMENDED_FIELDS` constant. -/
def RECOMMENDED_FIELDS : List (String × String) :=
  [("deadline", "сроки"),
   ("budget_range", "бюджет"),
   ("deliverables", "ожидаемые результаты"),
   ("must_have_features", "основной функционал")]

/-- Model of `BriefData.get_missing_required`. -/
def get_missing_required (d : BriefData) : List (String × String) :=
  REQUIRED_FIELDS.filter fun p => isMissingValue (getattrBriefField d p.1)

/-- Model of `BriefData.is_valid_for_generation`. -/
def is_valid_for_generation (d : BriefData) : Bool :=
  (get_missing_required d).length == 0

/-- The `BriefStatus` enum. -/
inductive BriefStatus where
  | idle
  | collecting
  | ready
deriving DecidableEq

/-- The `BriefSession` dataclass; timestamps are modelled as rationals. -/
structure BriefSession where
  user_id : ℤ
  status : BriefStatus := .idle
  data : BriefData := {}
  created_at : ℚ := 0
  updated_at : ℚ := 0
  current_step : String := "start"
deriving DecidableEq

/-- Model of `BriefSession.mark_ready`. -/
def mark_ready (s : BriefSession) : BriefSession :=
  if is_valid_for_generation s.data then { s with status := .ready } else s

/-! ### Free-text routing (src/main.py, `handle_text`, lines 707-737) -/

/-- Model of Python slicing `text[:n]` (by code points). -/
def strTake (n : ℕ) (s : String) : String := String.mk (s.data.take n)

/-- List-field parsing of `handle_text`: newline-split, trimmed, empties
dropped; when exactly one line remains and it contains a comma, comma-split
instead. -/
def parseEntries (text : String) : List String :=
  let lines := ((pySplit ['\n'] text.data).map fun l => String.mk (pyStrip l)).filter
    fun s => decide (s ≠ "")
  match lines with
  | [only] =>
    if only.data.contains ',' then
      ((pySplit [','] only.data).map fun l => String.mk (pyStrip l)).filter
        fun s => decide (s ≠ "")
    else [only]
  | other => other

/-- Model of the brief-session mutation performed by `handle_text` for an
active session (add the raw message, then route the text by `current_step`). -/
def handleBriefText (s : BriefSession) (now : ℚ) (text : String) : BriefSession :=
  if s.status = BriefStatus.collecting then
    let s1 := { s with
      data := { s.data with raw_messages := s.data.raw_messages ++ [text] },
      updated_at := now }
    let step := s1.current_step
    if step = "goal" ∨ (s1.data.project_goal = ""
        ∧ ¬ step ∈ ["features", "deliverables", "audience"]) then
      { s1 with
        data := { s1.data with project_goal := strTake 1000 text },
        current_step := "details" }
    else if step = "features" then
      { s1 with
        data := { s1.data with
          must_have_features := s1.data.must_have_features ++ (parseEntries text).take 10 },
        current_step := "details" }
    else if step = "deliverables" then
      { s1 with
        data := { s1.data with
          deliverables := s1.data.deliverables ++ (parseEntries text).take 10 },
        current_step := "details" }
    else if step = "audience" then
      { s1 with
        data := { s1.data with target_audience := strTake 500 text },
        current_step := "details" }
    else if step = "text" then
      if s1.data.project_goal = "" then
        { s1 with
          data := { s1.data with project_goal := strTake 1000 text },
          current_step := "details" }
      else { s1 with current_step := "details" }
    else s1
  else s

/-! ### Rate limiter (src/services/rate_limiter.py, `RateLimiter.is_allowed`) -/

/-- One `is_allowed` call for one user: prune entries at or before
`now - window`, reject when the pruned list has reached `max_requests`,
otherwise record `now`.  Returns (admitted?, new timestamp list). -/
def isAllowedStep (maxRequests : ℕ) (window : ℚ) (times : List ℚ) (now : ℚ) :
    Bool × List ℚ :=
  let pruned := times.filter fun t => decide (now - window < t)
  if maxRequests ≤ pruned.length then (false, pruned)
  else (true, pruned ++ [now])

/-- A sequence of `is_allowed` calls at the given times for one user. -/
def runCalls (maxRequests : ℕ) (window : ℚ) :
    List ℚ → List ℚ → List Bool × List ℚ
  | [], times => ([], times)
  | now :: rest, times =>
    let first := isAllowedStep maxRequests window times now
    let restRes := runCalls maxRequests window rest first.2
    (first.1 :: restRes.1, restRes.2)

/-! ### Store clearing (src/rag/vectorstore.py, `clear` and `_save_index`) -/

/-- Outcome of the underlying snapshot write (`json.dump` to the index file). -/
inductive SaveOutcome where
  | writeOk
  | writeError (msg : String)
deriving DecidableEq

/-- The raw write, which may raise. -/
def writeIndexFile : SaveOutcome → Except String Unit
  | .writeOk => .ok ()
  | .writeError m => .error m

/-- Model of `_save_index`: the write is wrapped in `try/except Exception`,
so a failing write is logged and swallowed — `_save_index` never raises. -/
def saveIndex (o : SaveOutcome) : Except String Unit :=
  match writeIndexFile o with
  | .ok _ => .ok ()
  | .error _ => .ok ()

/-- Model of `clear`: empty the document list, call `_save_index`; return
`False` only if `_save_index` raised. -/
def clearStore (_docs : List ChunkDoc) (o : SaveOutcome) : Bool × List ChunkDoc :=
  match saveIndex o with
  | .ok _ => (true, [])
  | .error _ => (false, [])

/-! ## Theorems -/

lemma tokenContribution_eq_contribVal (d : List String) (t : String) :
    tokenContribution d t = contribVal (d.count t) d.length := rfl

lemma idfWeight_eq (c : ℕ) :
    idfWeight c = 1 + Real.log (((c : ℝ) + 2) / ((c : ℝ) + 1)) := by
  have hc1 : ((c : ℝ) + 1) ≠ 0 := by positivity
  rw [idfWeight]
  congr 1
  congr 1
  field_simp
  ring

lemma idfWeight_nonneg (c : ℕ) : 0 ≤ idfWeight c := by
  rw [idfWeight_eq]
  have h1 : (0 : ℝ) < (c : ℝ) + 1 := by positivity
  have h2 : (1 : ℝ) ≤ ((c : ℝ) + 2) / ((c : ℝ) + 1) :=
    (one_le_div h1).mpr (by linarith)
  have := Real.log_nonneg h2
  linarith

lemma weighted_idf_mono (c : ℕ) :
    (c : ℝ) * idfWeight c ≤ ((c : ℝ) + 1) * idfWeight (c + 1) := by
  have hc1 : (0 : ℝ) < (c : ℝ) + 1 := by positivity
  have hc2 : (0 : ℝ) < (c : ℝ) + 2 := by positivity
  have hlog : Real.log (((c : ℝ) + 2) / ((c : ℝ) + 1)) ≤ 1 / ((c : ℝ) + 1) := by
    have h := Real.log_le_sub_one_of_pos (x := ((c : ℝ) + 2) / ((c : ℝ) + 1))
      (by positivity)
    have heq : ((c : ℝ) + 2) / ((c : ℝ) + 1) - 1 = 1 / ((c : ℝ) + 1) := by
      field_simp
      norm_num
    linarith [heq ▸ h]
  have hlog2 : 0 ≤ Real.log (((c : ℝ) + 3) / ((c : ℝ) + 2)) :=
    Real.log_nonneg ((one_le_div hc2).mpr (by linarith))
  have hdiv : (c : ℝ) * (1 / ((c : ℝ) + 1)) ≤ 1 := by
    rw [mul_one_div]
    exact (div_le_one hc1).mpr (by linarith)
  have hcast : idfWeight (c + 1) = 1 + Real.log (((c : ℝ) + 3) / ((c : ℝ) + 2)) := by
    rw [idfWeight_eq]
    push_cast
    ring_nf
  rw [idfWeight_eq, hcast]
  have hcnn : (0 : ℝ) ≤ (c : ℝ) := by positivity
  have h1 : (c : ℝ) * (1 + Real.log (((c : ℝ) + 2) / ((c : ℝ) + 1)))
      ≤ (c : ℝ) + 1 := by
    have := mul_le_mul_of_nonneg_left hlog hcnn
    nlinarith
  have h2 : (c : ℝ) + 1 ≤ ((c : ℝ) + 1) * (1 + Real.log (((c : ℝ) + 3) / ((c : ℝ) + 2))) := by
    nlinarith
  linarith

lemma contribVal_mono (c n : ℕ) : contribVal c n ≤ contribVal (c + 1) n := by
  rcases Nat.eq_zero_or_pos n with hn | hn
  · subst hn
    rcases Nat.eq_zero_or_pos c with hc | hc
    · subst hc
      simp [contribVal]
    · rw [contribVal, contribVal, if_neg (by omega), if_neg (by omega)]
      norm_num
  · have hnpos : (0 : ℝ) < (n : ℝ) := by exact_mod_cast hn
    rcases Nat.eq_zero_or_pos c with hc | hc
    · subst hc
      rw [contribVal, contribVal, if_pos rfl, if_neg (by omega)]
      have := idfWeight_nonneg 1
      positivity
    · rw [contribVal, contribVal, if_neg (by omega), if_neg (by omega)]
      rw [div_mul_eq_mul_div, div_mul_eq_mul_div]
      apply div_le_div_of_nonneg_right ?_ hnpos.le
      have := weighted_idf_mono c
      push_cast
      linarith

/-- C1 (amended). Replacing one occurrence of a token that is not a query token
by one more occurrence of any token never decreases the relevance score;
equivalently, the score is monotone in per-token occurrence counts when the
chunk's total token count is held fixed. -/
theorem relevance_replace_mono (q d : List String) (t x : String)
    (hx : x ∈ d) (hq : x ∉ q) :
    relevanceOfTokens q d ≤ relevanceOfTokens q (t :: d.erase x) := by
  have hd : d ≠ [] := List.ne_nil_of_mem hx
  rw [relevanceOfTokens, relevanceOfTokens, if_neg hd,
    if_neg (List.cons_ne_nil _ _)]
  apply List.sum_le_sum
  intro u hu
  have hux : u ≠ x := fun h => hq (h ▸ hu)
  rw [tokenContribution_eq_contribVal, tokenContribution_eq_contribVal]
  have hdlen : 0 < d.length := List.length_pos.mpr hd
  have hlen : (t :: d.erase x).length = d.length := by
    rw [List.length_cons, List.length_erase_of_mem hx]
    omega
  have hcnt : (t :: d.erase x).count u = d.count u + (if u = t then 1 else 0) := by
    rw [List.count_cons, List.count_erase_of_ne hux]
    congr 1
    by_cases h : u = t
    · subst h
      simp
    · simp [h, Ne.symm h]
  rw [hlen, hcnt]
  by_cases hut : u = t
  · rw [if_pos hut]
    exact contribVal_mono _ _
  · rw [if_neg hut, Nat.add_zero]

/-- C1 witness: a concrete replacement instance of the amended monotonicity. -/
theorem relevance_replace_mono_witness :
    "bar" ∈ (["bar"] : List String) ∧ "bar" ∉ (["foo"] : List String) ∧
      relevanceOfTokens ["foo"] ["bar"]
        ≤ relevanceOfTokens ["foo"] ("foo" :: (["bar"] : List String).erase "bar") :=
  ⟨by decide, by decide,
    relevance_replace_mono ["foo"] ["bar"] "foo" "bar" (by decide) (by decide)⟩

/-- C1 counterexample: the claim as stated fails.  With query token `foo` and
chunk `"foo"`, adding an exact repeated occurrence of the query token (chunk
`"foo foo"`) strictly decreases the relevance score computed by
`_calculate_relevance`. -/
theorem score_monotonicity_counterexample :
    calculateRelevance (tokenize "foo") "foo foo"
      < calculateRelevance (tokenize "foo") "foo" := by
  have h1 : tokenize "foo" = ["foo"] := by decide
  have h2 : tokenize "foo foo" = ["foo", "foo"] := by decide
  rw [calculateRelevance, calculateRelevance, h1, h2]
  rw [relevanceOfTokens, relevanceOfTokens, if_neg (by simp), if_neg (by simp)]
  have hc2 : (["foo", "foo"] : List String).count "foo" = 2 := by decide
  have hc1 : (["foo"] : List String).count "foo" = 1 := by decide
  simp only [List.map_cons, List.map_nil, List.sum_cons, List.sum_nil, add_zero]
  rw [tokenContribution_eq_contribVal, tokenContribution_eq_contribVal, hc2, hc1]
  rw [contribVal, contribVal, if_neg (by omega), if_neg (by omega)]
  have hw : idfWeight 2 < idfWeight 1 := by
    rw [idfWeight, idfWeight]
    have : Real.log (1 + 1 / (1 + ((2 : ℕ) : ℝ))) < Real.log (1 + 1 / (1 + ((1 : ℕ) : ℝ))) := by
      apply Real.log_lt_log
      · norm_num
      · norm_num
    linarith
  have h2nn : 0 ≤ idfWeight 2 := idfWeight_nonneg 2
  norm_num
  linarith

/-! ### Resilient gateway (src/services/openai_client.py, `_retry_with_backoff`)

One call of the wrapped coroutine is modelled by an `AttemptOutcome`; the
sequence of outcomes the underlying request would produce on successive
attempts is a function `ℕ → AttemptOutcome`.  The dispatch order of the
`except` clauses (rate limit, connection error, generic API error, anything
else) is the order of the constructors below. -/

/-- Outcome of one attempt of the wrapped request. -/
inductive AttemptOutcome where
  | success (value : String)
  | rateLimit (msg : String)
  | connectionError (msg : String)
  | apiError (msg : String)
  | otherError (msg : String)
deriving DecidableEq

/-- The single exception type `OpenAIError`; instances differ by message. -/
structure OpenAIError where
  msg : String
deriving DecidableEq

/-- Result of `_retry_with_backoff`: a returned value or one raised error. -/
inductive RetryResult where
  | ok (value : String)
  | raised (e : OpenAIError)
deriving DecidableEq

/-- The error raised when the whole retry budget is exhausted. -/
def serviceUnavailableError : OpenAIError :=
  ⟨"Сервис временно недоступен. Попробуйте позже."⟩

/-- The error raised immediately on a non-retryable `APIError`. -/
def apiErrorOf (m : String) : OpenAIError := ⟨"Ошибка API: " ++ m⟩

/-- The error raised immediately on any other unexpected exception. -/
def otherErrorOf (m : String) : OpenAIError := ⟨"Неожиданная ошибка: " ++ m⟩

/-- Retryable outcomes: rate limiting and transient connection failures. -/
def isRetryable : AttemptOutcome → Bool
  | .rateLimit _ => true
  | .connectionError _ => true
  | _ => false

/-- Loop body of `_retry_with_backoff`: `remaining` iterations of the `for`
loop are left and `made` attempts were already performed.  Returns the result
together with the total number of attempts performed.  (The backoff sleeps do
not affect the result and are not modelled.) -/
def retryFrom (outcomes : ℕ → AttemptOutcome) : ℕ → ℕ → RetryResult × ℕ
  | 0, made => (.raised serviceUnavailableError, made)
  | n + 1, made =>
    match outcomes made with
    | .success v => (.ok v, made + 1)
    | .rateLimit _ => retryFrom outcomes n (made + 1)
    | .connectionError _ => retryFrom outcomes n (made + 1)
    | .apiError m => (.raised (apiErrorOf m), made + 1)
    | .otherError m => (.raised (otherErrorOf m), made + 1)

/-- Model of `OpenAIClient._retry_with_backoff` with `max_retries` attempts
(`config.API_MAX_RETRIES`, default 3). -/
def retryWithBackoff (outcomes : ℕ → AttemptOutcome) (maxRetries : ℕ) :
    RetryResult × ℕ :=
  retryFrom outcomes maxRetries 0

/-- Default number of attempts, `config.API_MAX_RETRIES` (src/config.py). -/
def defaultMaxRetries : ℕ := 3

lemma retryFrom_all_retryable (outcomes : ℕ → AttemptOutcome) :
    ∀ n made, (∀ i, made ≤ i → i < made + n → isRetryable (outcomes i)) →
      retryFrom outcomes n made = (.raised serviceUnavailableError, made + n) := by
  intro n
  induction n with
  | zero => intro made _; simp [retryFrom]
  | succ k ih =>
    intro made h
    have h0 : isRetryable (outcomes made) := h made le_rfl (by omega)
    rw [retryFrom]
    cases houtcome : outcomes made with
    | success v => rw [houtcome] at h0; simp [isRetryable] at h0
    | apiError m => rw [houtcome] at h0; simp [isRetryable] at h0
    | otherError m => rw [houtcome] at h0; simp [isRetryable] at h0
    | rateLimit m =>
      have h9 := ih (made + 1) (fun i h1 h2 => h i (by omega) (by omega))
      have harith : made + 1 + k = made + (k + 1) := by omega
      rw [harith] at h9
      exact h9
    | connectionError m =>
      have h9 := ih (made + 1) (fun i h1 h2 => h i (by omega) (by omega))
      have harith : made + 1 + k = made + (k + 1) := by omega
      rw [harith] at h9
      exact h9

/-- C5: when every attempt fails with a retryable error (rate limit or
transient connection error), `_retry_with_backoff` performs exactly
`max_retries` attempts (default `defaultMaxRetries = 3`) and then raises
exactly one error, the service-unavailable `OpenAIError`. -/
theorem retry_exhaustion (outcomes : ℕ → AttemptOutcome) (maxRetries : ℕ)
    (h : ∀ i, i < maxRetries → isRetryable (outcomes i)) :
    retryWithBackoff outcomes maxRetries
      = (.raised serviceUnavailableError, maxRetries) ∧ defaultMaxRetries = 3 := by
  refine ⟨?_, rfl⟩
  rw [retryWithBackoff, retryFrom_all_retryable outcomes maxRetries 0
    (fun i _ h2 => h i (by omega))]
  simp

/-- C5 witness: three rate-limited attempts with the default budget of 3. -/
theorem retry_exhaustion_witness :
    retryWithBackoff (fun _ => .rateLimit "429") 3
      = (.raised serviceUnavailableError, 3) ∧ defaultMaxRetries = 3 :=
  retry_exhaustion (fun _ => .rateLimit "429") 3 (fun i _ => by simp [isRetryable])

/-- C6: a non-retryable `APIError` on the first attempt surfaces immediately
after that single attempt as the typed api-error `OpenAIError`, consuming no
retry budget, and that error is distinct from the service-unavailable error
raised on retry exhaustion. -/
theorem nonretryable_immediate (outcomes : ℕ → AttemptOutcome)
    (maxRetries : ℕ) (m : String) (hN : 1 ≤ maxRetries)
    (h0 : outcomes 0 = .apiError m) :
    retryWithBackoff outcomes maxRetries = (.raised (apiErrorOf m), 1) ∧
      apiErrorOf m ≠ serviceUnavailableError := by
  constructor
  · obtain ⟨k, rfl⟩ : ∃ k, maxRetries = k + 1 := ⟨maxRetries - 1, by omega⟩
    rw [retryWithBackoff, retryFrom, h0]
  · intro hcontra
    have hdata : ("Ошибка API: " ++ m).data
        = "Сервис временно недоступен. Попробуйте позже.".data :=
      congrArg (fun e : OpenAIError => e.msg.data) hcontra
    rw [String.data_append] at hdata
    have h1 : "Ошибка API: ".data = 'О' :: "шибка API: ".data := by decide
    have h2 : "Сервис временно недоступен. Попробуйте позже.".data
        = 'С' :: "ервис временно недоступен. Попробуйте позже.".data := by decide
    have hhead := congrArg List.head? hdata
    rw [h1, h2] at hhead
    simp only [List.cons_append, List.head?_cons, Option.some.injEq] at hhead
    exact absurd hhead (by decide)

/-- C6 witness: a malformed-request failure with the default budget. -/
theorem nonretryable_immediate_witness :
    retryWithBackoff (fun _ => .apiError "bad request") 3
      = (.raised (apiErrorOf "bad request"), 1) ∧
      apiErrorOf "bad request" ≠ serviceUnavailableError :=
  nonretryable_immediate (fun _ => .apiError "bad request") 3 "bad request"
    (by omega) rfl

lemma valid_iff_no_missing (d : BriefData) :
    is_valid_for_generation d = true ↔ get_missing_required d = [] := by
  rw [is_valid_for_generation]
  simp [List.length_eq_zero]

/-- C7: for a session in `Collecting` state, `mark_ready` moves it to `Ready`
iff no required field (`project_goal`, `project_type`, `platform`) is missing,
and otherwise is a no-op leaving the whole session (status and data)
unchanged.  Moreover for brief data with an empty `project_goal` and non-empty
`project_type` and `platform`, the missing-required list is exactly the
`project_goal` entry and generation is refused. -/
theorem mark_ready_gate (s : BriefSession) (hs : s.status = .collecting) :
    ((mark_ready s).status = .ready ↔ get_missing_required s.data = []) ∧
    (get_missing_required s.data ≠ [] → mark_ready s = s) ∧
    (∀ d : BriefData, d.project_goal = "" → d.project_type ≠ "" → d.platform ≠ "" →
      get_missing_required d = [("project_goal", "цель проекта")] ∧
      is_valid_for_generation d = false) := by
  refine ⟨?_, ?_, ?_⟩
  · by_cases h : is_valid_for_generation s.data
    · rw [mark_ready, if_pos h]
      exact iff_of_true rfl ((valid_iff_no_missing _).mp h)
    · rw [mark_ready, if_neg h]
      refine iff_of_false ?_ fun hnil => h ((valid_iff_no_missing _).mpr hnil)
      intro hcc
      rw [hs] at hcc
      exact absurd hcc (by decide)
  · intro hne
    rw [mark_ready, if_neg fun h => hne ((valid_iff_no_missing _).mp h)]
  · intro d h1 h2 h3
    have hb2 : (d.project_type == "") = false := beq_eq_false_iff_ne.mpr h2
    have hb3 : (d.platform == "") = false := beq_eq_false_iff_ne.mpr h3
    have hmiss : get_missing_required d = [("project_goal", "цель проекта")] := by
      rw [get_missing_required, REQUIRED_FIELDS]
      simp [List.filter, getattrBriefField, isMissingValue, h1, hb2, hb3]
    refine ⟨hmiss, ?_⟩
    rw [is_valid_for_generation, hmiss]
    rfl

/-- C7 witness: concrete collecting session with `project_goal` empty. -/
theorem mark_ready_gate_witness :
    (({ user_id := 1, status := .collecting,
        data := { project_goal := "", project_type := "Landing",
                  platform := "Web" } } : BriefSession).status = .collecting) ∧
    get_missing_required
        ({ project_goal := "", project_type := "Landing",
           platform := "Web" } : BriefData)
      = [("project_goal", "цель проекта")] :=
  ⟨rfl,
    ((mark_ready_gate
      { user_id := 1, status := .collecting,
        data := { project_goal := "", project_type := "Landing",
                  platform := "Web" } } rfl).2.2
      { project_goal := "", project_type := "Landing", platform := "Web" }
      rfl (by decide) (by decide)).1⟩

/-- C8: while `current_step` is `features`, an incoming text is parsed into
entries (newline-split, comma fallback for a single comma-bearing line) and at
most 10 new entries are appended to `must_have_features`, never replacing the
old ones; the two sample messages append exactly 3 and exactly 2 entries. -/
theorem features_accumulation (s : BriefSession) (now : ℚ) (text : String)
    (hact : s.status = .collecting) (hstep : s.current_step = "features") :
    (handleBriefText s now text).data.must_have_features
        = s.data.must_have_features ++ (parseEntries text).take 10 ∧
    (handleBriefText s now text).data.must_have_features.length
        ≤ s.data.must_have_features.length + 10 ∧
    parseEntries "Login\nSignup\nCheckout" = ["Login", "Signup", "Checkout"] ∧
    parseEntries "Login, Signup" = ["Login", "Signup"] ∧
    (handleBriefText s now "Login\nSignup\nCheckout").data.must_have_features.length
        = s.data.must_have_features.length + 3 ∧
    (handleBriefText s now "Login, Signup").data.must_have_features.length
        = s.data.must_have_features.length + 2 := by
  have hmain : ∀ t : String, (handleBriefText s now t).data.must_have_features
      = s.data.must_have_features ++ (parseEntries t).take 10 := by
    intro t
    rw [handleBriefText, if_pos hact]
    simp only [hstep]
    norm_num
    rw [if_neg (by decide : ¬ ("features" = "goal"))]
  have hlen3 : ((parseEntries "Login\nSignup\nCheckout").take 10).length = 3 := by
    decide
  have hlen2 : ((parseEntries "Login, Signup").take 10).length = 2 := by
    decide
  refine ⟨hmain text, ?_, by decide, by decide, ?_, ?_⟩
  · rw [hmain text, List.length_append]
    have := List.length_take_le 10 (parseEntries text)
    omega
  · rw [hmain _, List.length_append, hlen3]
  · rw [hmain _, List.length_append, hlen2]

/-- C8 witness: the three-line sample appended to a concrete session. -/
theorem features_accumulation_witness :
    (handleBriefText
        { user_id := 1, status := .collecting, current_step := "features" } 0
        "Login\nSignup\nCheckout").data.must_have_features
      = ({ user_id := 1, status := .collecting,
           current_step := "features" } : BriefSession).data.must_have_features
        ++ (parseEntries "Login\nSignup\nCheckout").take 10 :=
  (features_accumulation
    { user_id := 1, status := .collecting, current_step := "features" } 0
    "Login\nSignup\nCheckout" rfl rfl).1

/-- C9: the sliding-window admission gate.  Pruned entries are exactly those
newer than `now - window`; a call is admitted iff fewer than `max_requests`
pruned timestamps remain, and then records its own timestamp; the per-user
list never exceeds `max_requests` after any sequence of calls; and in the
sample scenario (max=2, window=60s, calls at 0s, 0.5s, 1s, 61s) the outcomes
are: allowed, allowed, rejected, allowed. -/
theorem rate_window (m : ℕ) (w : ℚ) :
    (∀ times now, (isAllowedStep m w times now).1 = true ↔
      (times.filter fun t => decide (now - w < t)).length < m) ∧
    (∀ times now, (isAllowedStep m w times now).1 = true →
      (isAllowedStep m w times now).2
        = (times.filter fun t => decide (now - w < t)) ++ [now]) ∧
    (∀ times now, (isAllowedStep m w times now).1 = false →
      (isAllowedStep m w times now).2
        = times.filter fun t => decide (now - w < t)) ∧
    (∀ calls times, times.length ≤ m →
      ((runCalls m w calls times).2).length ≤ m) ∧
    (runCalls 2 60 [0, 1/2, 1, 61] []).1 = [true, true, false, true] := by
  have hpos : ∀ (times : List ℚ) (now : ℚ),
      m ≤ ((times.filter fun t => decide (now - w < t)).length) →
      isAllowedStep m w times now
        = (false, times.filter fun t => decide (now - w < t)) := by
    intro times now h
    rw [isAllowedStep, if_pos h]
  have hneg : ∀ (times : List ℚ) (now : ℚ),
      ¬ m ≤ ((times.filter fun t => decide (now - w < t)).length) →
      isAllowedStep m w times now
        = (true, (times.filter fun t => decide (now - w < t)) ++ [now]) := by
    intro times now h
    rw [isAllowedStep, if_neg h]
  have hstep : ∀ (times : List ℚ) (now : ℚ), times.length ≤ m →
      ((isAllowedStep m w times now).2).length ≤ m := by
    intro times now htimes
    have hf : ((times.filter fun t => decide (now - w < t)).length) ≤ times.length :=
      List.length_filter_le _ _
    by_cases h : m ≤ (times.filter fun t => decide (now - w < t)).length
    · rw [hpos times now h]
      exact le_trans hf htimes
    · rw [hneg times now h]
      show ((times.filter fun t => decide (now - w < t)) ++ [now]).length ≤ m
      rw [List.length_append]
      simp only [List.length_cons, List.length_nil]
      omega
  refine ⟨?_, ?_, ?_, ?_, ?_⟩
  · intro times now
    by_cases h : m ≤ (times.filter fun t => decide (now - w < t)).length
    · rw [hpos times now h]
      exact iff_of_false Bool.false_ne_true (by omega)
    · rw [hneg times now h]
      exact iff_of_true rfl (by omega)
  · intro times now
    by_cases h : m ≤ (times.filter fun t => decide (now - w < t)).length
    · rw [hpos times now h]
      intro hcontra
      exact absurd hcontra Bool.false_ne_true
    · rw [hneg times now h]
      intro _
      rfl
  · intro times now
    by_cases h : m ≤ (times.filter fun t => decide (now - w < t)).length
    · rw [hpos times now h]
      intro _
      rfl
    · rw [hneg times now h]
      intro hcontra
      exact absurd hcontra (by simp)
  · intro calls
    induction calls with
    | nil => intro times h; exact h
    | cons now rest ih =>
      intro times h
      rw [runCalls]
      exact ih _ (hstep times now h)
  · norm_num [runCalls, isAllowedStep]

/-- C9 witness: the invariant instantiated at the sample scenario. -/
theorem rate_window_witness :
    ((runCalls 2 60 [0, 1/2, 1, 61] []).2).length ≤ 2 ∧
    (runCalls 2 60 [0, 1/2, 1, 61] []).1 = [true, true, false, true] :=
  ⟨(rate_window 2 60).2.2.2.1 [0, 1/2, 1, 61] [] (by decide),
    (rate_window 2 60).2.2.2.2⟩

/-- C10: `clear` always returns `True` with an emptied document list — write
failures inside `_save_index` are caught there and never propagate, so the
`False` branch of `clear` is unreachable, whatever the snapshot write does. -/
theorem clear_always_true (docs : List ChunkDoc) (o : SaveOutcome) :
    clearStore docs o = (true, []) := by
  cases o <;> rfl

lemma foldl_preserve {α β : Type} (P : β → Prop) (f : β → α → β) (l : List α) :
    ∀ st : β, P st → (∀ a ∈ l, ∀ s, P s → P (f s a)) → P (l.foldl f st) := by
  induction l with
  | nil => intro st h _; exact h
  | cons a t ih =>
    intro st h hf
    rw [List.foldl_cons]
    exact ih (f st a) (hf a (by simp) st h) fun b hb s hs => hf b (by simp [hb]) s hs

lemma stepParagraph_eq (size : ℕ) (st : List (List Char) × List Char)
    (para0 : List Char) :
    stepParagraph size st para0 =
      (if (pyStrip para0).isEmpty then st
       else if st.2.length + (pyStrip para0).length + 2 ≤ size then
         (st.1, if st.2.isEmpty then pyStrip para0
                else st.2 ++ '\n' :: '\n' :: pyStrip para0)
       else if size < (pyStrip para0).length then
         (sentenceSplit (pyStrip para0)).foldl (stepSentence size)
           ((if st.2.isEmpty then st.1 else st.1 ++ [st.2]), [])
       else ((if st.2.isEmpty then st.1 else st.1 ++ [st.2]), pyStrip para0)) := rfl

lemma splitText_eq (size : ℕ) (text : List Char) :
    splitText size text =
      (if ((pySplit chunkSep text).foldl (stepParagraph size) ([], [])).2.isEmpty
       then ((pySplit chunkSep text).foldl (stepParagraph size) ([], [])).1
       else ((pySplit chunkSep text).foldl (stepParagraph size) ([], [])).1
         ++ [((pySplit chunkSep text).foldl (stepParagraph size) ([], [])).2]) := rfl

lemma stepSentence_preserves (size : ℕ) (paras : List (List Char))
    (p : List Char) (hp : p ∈ paras) (s : List Char)
    (hs : s ∈ sentenceSplit (pyStrip p)) (st : List (List Char) × List Char)
    (hst : (∀ c ∈ st.1, sizeOK size paras c) ∧
      (st.2.length ≤ size ∨ (size < st.2.length ∧ st.2 ∈ sentenceSplit (pyStrip p)))) :
    (∀ c ∈ (stepSentence size st s).1, sizeOK size paras c) ∧
      ((stepSentence size st s).2.length ≤ size ∨
        (size < (stepSentence size st s).2.length ∧
          (stepSentence size st s).2 ∈ sentenceSplit (pyStrip p))) := by
  obtain ⟨h1, h2⟩ := hst
  rw [stepSentence]
  by_cases hc : st.2.length + s.length + 1 ≤ size
  · rw [if_pos hc]
    refine ⟨h1, Or.inl ?_⟩
    by_cases he : st.2.isEmpty
    · rw [if_pos he]
      dsimp only
      omega
    · rw [if_neg he]
      simp only [List.length_append, List.length_cons]
      omega
  · rw [if_neg hc]
    constructor
    · intro c hcmem
      by_cases he : st.2.isEmpty
      · rw [if_pos he] at hcmem
        exact h1 c hcmem
      · rw [if_neg he] at hcmem
        rcases List.mem_append.mp hcmem with h | h
        · exact h1 c h
        · have hceq : c = st.2 := by simpa using h
          subst hceq
          rcases h2 with h2 | ⟨hgt, hmem⟩
          · exact Or.inl h2
          · exact Or.inr ⟨hgt, p, hp, hmem⟩
    · rcases le_or_lt s.length size with hsl | hsl
      · exact Or.inl hsl
      · exact Or.inr ⟨hsl, hs⟩

lemma stepParagraph_preserves (size : ℕ) (paras : List (List Char))
    (para0 : List Char) (hpara : para0 ∈ paras) (st : List (List Char) × List Char)
    (hst : (∀ c ∈ st.1, sizeOK size paras c) ∧ sizeOK size paras st.2) :
    (∀ c ∈ (stepParagraph size st para0).1, sizeOK size paras c) ∧
      sizeOK size paras (stepParagraph size st para0).2 := by
  obtain ⟨h1, h2⟩ := hst
  rw [stepParagraph_eq]
  by_cases hpe : (pyStrip para0).isEmpty
  · rw [if_pos hpe]
    exact ⟨h1, h2⟩
  · rw [if_neg hpe]
    by_cases hpack : st.2.length + (pyStrip para0).length + 2 ≤ size
    · rw [if_pos hpack]
      refine ⟨h1, Or.inl ?_⟩
      by_cases he : st.2.isEmpty
      · rw [if_pos he]
        dsimp only
        omega
      · rw [if_neg he]
        simp only [List.length_append, List.length_cons]
        omega
    · rw [if_neg hpack]
      have hchunks1 : ∀ c ∈ (if st.2.isEmpty then st.1 else st.1 ++ [st.2]),
          sizeOK size paras c := by
        intro c hc
        by_cases he : st.2.isEmpty
        · rw [if_pos he] at hc
          exact h1 c hc
        · rw [if_neg he] at hc
          rcases List.mem_append.mp hc with h | h
          · exact h1 c h
          · have hceq : c = st.2 := by simpa using h
            exact hceq ▸ h2
      by_cases hbig : size < (pyStrip para0).length
      · rw [if_pos hbig]
        have hfold := foldl_preserve
          (fun st2 : List (List Char) × List Char =>
            (∀ c ∈ st2.1, sizeOK size paras c) ∧
              (st2.2.length ≤ size ∨ (size < st2.2.length ∧
                st2.2 ∈ sentenceSplit (pyStrip para0))))
          (stepSentence size) (sentenceSplit (pyStrip para0))
          ((if st.2.isEmpty then st.1 else st.1 ++ [st.2]), [])
          ⟨hchunks1, Or.inl (by simp)⟩
          (fun s hsmem st2 hst2 =>
            stepSentence_preserves size paras para0 hpara s hsmem st2 hst2)
        obtain ⟨hA, hB⟩ := hfold
        refine ⟨hA, ?_⟩
        rcases hB with h | ⟨hgt, hmem⟩
        · exact Or.inl h
        · exact Or.inr ⟨hgt, para0, hpara, hmem⟩
      · rw [if_neg hbig]
        exact ⟨hchunks1, Or.inl (by dsimp only; omega)⟩

/-- C2: every chunk emitted by `_split_text` has length at most the configured
chunk size, except a chunk that is a single oversized unit of the sentence
decomposition of one of the input's paragraphs (a paragraph with no sentence
boundary is its own single unit); such an overflow chunk equals exactly that
unit — nothing is truncated. -/
theorem chunk_size_bound (size : ℕ) (text : List Char) :
    ∀ c ∈ splitText size text,
      c.length ≤ size ∨ (size < c.length ∧
        ∃ p ∈ pySplit chunkSep text, c ∈ sentenceSplit (pyStrip p)) := by
  have hfold := foldl_preserve
    (fun st : List (List Char) × List Char =>
      (∀ c ∈ st.1, sizeOK size (pySplit chunkSep text) c) ∧
        sizeOK size (pySplit chunkSep text) st.2)
    (stepParagraph size) (pySplit chunkSep text) ([], [])
    ⟨fun c hc => absurd hc (List.not_mem_nil c), Or.inl (by simp)⟩
    (fun p hp st hst => stepParagraph_preserves size _ p hp st hst)
  obtain ⟨hA, hB⟩ := hfold
  intro c hc
  rw [splitText_eq] at hc
  by_cases he : ((pySplit chunkSep text).foldl (stepParagraph size) ([], [])).2.isEmpty
  · rw [if_pos he] at hc
    exact hA c hc
  · rw [if_neg he] at hc
    rcases List.mem_append.mp hc with h | h
    · exact hA c h
    · have hceq : c = ((pySplit chunkSep text).foldl (stepParagraph size) ([], [])).2 := by
        simpa using h
      exact hceq ▸ hB

/-- C2 witness: a concrete overflow chunk of a small input. -/
theorem chunk_size_bound_witness :
    "abcd efg.".data ∈ splitText 3 "abcd efg. hi".data ∧
      ("abcd efg.".data.length ≤ 3 ∨ (3 < "abcd efg.".data.length ∧
        ∃ p ∈ pySplit chunkSep "abcd efg. hi".data,
          "abcd efg.".data ∈ sentenceSplit (pyStrip p))) :=
  ⟨by decide, chunk_size_bound 3 "abcd efg. hi".data "abcd efg.".data (by decide)⟩

lemma splitSeqF_nil (sep : List Char) (fuel : ℕ) : splitSeqF sep fuel [] = [[]] := by
  cases fuel <;> rfl

lemma splitSeqF_succ_cons_pos (sep : List Char) (fuel : ℕ) (a : Char) (l : List Char)
    (h : sep.isPrefixOf (a :: l)) :
    splitSeqF sep (fuel + 1) (a :: l)
      = [] :: splitSeqF sep fuel ((a :: l).drop sep.length) := by
  rw [splitSeqF, if_pos h]

lemma splitSeqF_succ_cons_neg (sep : List Char) (fuel : ℕ) (a : Char) (l : List Char)
    (h : ¬ sep.isPrefixOf (a :: l)) (x : List Char) (xs : List (List Char))
    (hres : splitSeqF sep fuel l = x :: xs) :
    splitSeqF sep (fuel + 1) (a :: l) = (a :: x) :: xs := by
  rw [splitSeqF, if_neg h, hres]

lemma splitSeqF_ne_nil (sep : List Char) : ∀ fuel l, splitSeqF sep fuel l ≠ [] := by
  intro fuel l
  cases l with
  | nil => rw [splitSeqF_nil]; simp
  | cons a l =>
    cases fuel with
    | zero => simp [splitSeqF]
    | succ fuel =>
      by_cases h : sep.isPrefixOf (a :: l)
      · rw [splitSeqF_succ_cons_pos sep fuel a l h]
        simp
      · rcases hres : splitSeqF sep fuel l with _ | ⟨x, xs⟩
        · exact absurd hres (splitSeqF_ne_nil sep fuel l)
        · rw [splitSeqF_succ_cons_neg sep fuel a l h x xs hres]
          simp

lemma subset_of_mem_splitSeqF (sep : List Char) :
    ∀ fuel l p, p ∈ splitSeqF sep fuel l → ∀ x ∈ p, x ∈ l := by
  intro fuel
  induction fuel with
  | zero =>
    intro l p hp x hx
    cases l with
    | nil =>
      rw [splitSeqF_nil] at hp
      simp at hp
      subst hp
      cases hx
    | cons a l =>
      have heq : splitSeqF sep 0 (a :: l) = [a :: l] := rfl
      rw [heq] at hp
      simp at hp
      subst hp
      exact hx
  | succ fuel ih =>
    intro l p hp x hx
    cases l with
    | nil =>
      rw [splitSeqF_nil] at hp
      simp at hp
      subst hp
      cases hx
    | cons a l =>
      by_cases h : sep.isPrefixOf (a :: l)
      · rw [splitSeqF_succ_cons_pos sep fuel a l h] at hp
        rcases List.mem_cons.mp hp with rfl | hp2
        · cases hx
        · exact List.mem_of_mem_drop (ih _ p hp2 x hx)
      · rcases hres : splitSeqF sep fuel l with _ | ⟨y, ys⟩
        · exact absurd hres (splitSeqF_ne_nil sep fuel l)
        · rw [splitSeqF_succ_cons_neg sep fuel a l h y ys hres] at hp
          rcases List.mem_cons.mp hp with rfl | hp2
          · rcases List.mem_cons.mp hx with rfl | hx2
            · exact List.mem_cons_self x l
            · exact List.mem_cons_of_mem a
                (ih l y (hres ▸ List.mem_cons_self y ys) x hx2)
          · exact List.mem_cons_of_mem a
              (ih l p (hres ▸ List.mem_cons_of_mem y hp2) x hx)

lemma noWS_append (a b : List Char) : noWS (a ++ b) = noWS a ++ noWS b := by
  simp [noWS]

lemma noWS_reverse (l : List Char) : noWS l.reverse = (noWS l).reverse := by
  simp [noWS]

lemma noWS_cons_of_ws (a : Char) (l : List Char) (h : a.isWhitespace = true) :
    noWS (a :: l) = noWS l := by
  rw [noWS, List.filter_cons_of_neg (by simp [h])]
  rfl

lemma noWS_cons_of_not_ws (a : Char) (l : List Char) (h : ¬ a.isWhitespace = true) :
    noWS (a :: l) = a :: noWS l := by
  rw [noWS, List.filter_cons_of_pos (by simp [h])]
  rfl

lemma noWS_dropWhile (l : List Char) :
    noWS (l.dropWhile Char.isWhitespace) = noWS l := by
  induction l with
  | nil => rfl
  | cons a l ih =>
    rw [List.dropWhile_cons]
    by_cases h : Char.isWhitespace a
    · rw [if_pos h, ih]
      simp [noWS, List.filter_cons, h]
    · rw [if_neg h]

lemma noWS_pyStrip (l : List Char) : noWS (pyStrip l) = noWS l := by
  rw [pyStrip, noWS_reverse, noWS_dropWhile, noWS_reverse, noWS_dropWhile,
    List.reverse_reverse]

lemma subset_pyStrip (l : List Char) : ∀ x ∈ pyStrip l, x ∈ l := by
  intro x hx
  rw [pyStrip] at hx
  rw [List.mem_reverse] at hx
  have hx2 := (List.dropWhile_sublist _).subset hx
  rw [List.mem_reverse] at hx2
  exact (List.dropWhile_sublist _).subset hx2

lemma noWS_flatten (ls : List (List Char)) : noWS ls.flatten = noWSJoin ls := by
  induction ls with
  | nil => rfl
  | cons a ls ih =>
    rw [List.flatten_cons, noWS_append, ih]
    simp [noWSJoin]

lemma noWSJoin_append (a b : List (List Char)) :
    noWSJoin (a ++ b) = noWSJoin a ++ noWSJoin b := by
  simp [noWSJoin]

lemma noWSJoin_splitSeqF (sep : List Char) (hsep : sep ≠ []) (hws : noWS sep = []) :
    ∀ fuel l, l.length ≤ fuel → noWSJoin (splitSeqF sep fuel l) = noWS l := by
  intro fuel
  induction fuel with
  | zero =>
    intro l hl
    have hnil : l = [] := List.eq_nil_of_length_eq_zero (Nat.le_zero.mp hl)
    subst hnil
    rw [splitSeqF_nil]
    simp [noWSJoin, noWS]
  | succ fuel ih =>
    intro l hl
    cases l with
    | nil =>
      rw [splitSeqF_nil]
      simp [noWSJoin, noWS]
    | cons a l =>
      by_cases h : sep.isPrefixOf (a :: l)
      · rw [splitSeqF_succ_cons_pos sep fuel a l h]
        have hpre : sep <+: (a :: l) := List.isPrefixOf_iff_prefix.mp h
        obtain ⟨rest, hrest⟩ := hpre
        have hdrop : (a :: l).drop sep.length = rest := by
          rw [← hrest, List.drop_left]
        have hslen : 1 ≤ sep.length := by
          cases sep with
          | nil => exact absurd rfl hsep
          | cons s ss => simp
        have hlens := congrArg List.length hrest
        rw [List.length_append] at hlens
        have hlcons : l.length + 1 ≤ fuel + 1 := by
          simpa using hl
        have hrlen : rest.length ≤ fuel := by
          simp at hlens
          omega
        rw [hdrop]
        have hjoin : noWSJoin ([] :: splitSeqF sep fuel rest)
            = noWSJoin (splitSeqF sep fuel rest) := by
          simp [noWSJoin, noWS]
        rw [hjoin, ih rest hrlen, ← hrest, noWS_append, hws, List.nil_append]
      · rcases hres : splitSeqF sep fuel l with _ | ⟨x, xs⟩
        · exact absurd hres (splitSeqF_ne_nil sep fuel l)
        · rw [splitSeqF_succ_cons_neg sep fuel a l h x xs hres]
          have hIH := ih l (by simpa using hl)
          rw [hres] at hIH
          simp only [noWSJoin, List.map_cons, List.flatten_cons] at hIH ⊢
          by_cases hwa : Char.isWhitespace a
          · rw [noWS_cons_of_ws a x hwa, noWS_cons_of_ws a l hwa]
            exact hIH
          · rw [noWS_cons_of_not_ws a x hwa, noWS_cons_of_not_ws a l hwa,
              List.cons_append, hIH]

lemma flatten_splitSeqF_single (c : Char) :
    ∀ fuel l, l.length ≤ fuel →
      (splitSeqF [c] fuel l).flatten = l.filter fun x => x != c := by
  intro fuel
  induction fuel with
  | zero =>
    intro l hl
    have hnil : l = [] := List.eq_nil_of_length_eq_zero (Nat.le_zero.mp hl)
    subst hnil
    rw [splitSeqF_nil]
    rfl
  | succ fuel ih =>
    intro l hl
    cases l with
    | nil =>
      rw [splitSeqF_nil]
      rfl
    | cons a l =>
      by_cases h : List.isPrefixOf [c] (a :: l)
      · have hac : c = a := by
          simp [List.isPrefixOf] at h
          exact h
        rw [splitSeqF_succ_cons_pos [c] fuel a l h]
        have hdrop : (a :: l).drop ([c].length) = l := by simp
        rw [hdrop]
        subst hac
        rw [List.flatten_cons, List.nil_append, ih l (by simpa using hl)]
        rw [List.filter_cons_of_neg (by simp)]
      · have hac : ¬ a = c := by
          intro hcontra
          subst hcontra
          simp [List.isPrefixOf] at h
        rcases hres : splitSeqF [c] fuel l with _ | ⟨x, xs⟩
        · exact absurd hres (splitSeqF_ne_nil [c] fuel l)
        · rw [splitSeqF_succ_cons_neg [c] fuel a l h x xs hres]
          have hIH := ih l (by simpa using hl)
          rw [hres] at hIH
          rw [List.flatten_cons] at hIH
          have hane : (a != c) = true := by simpa using hac
          rw [List.flatten_cons, List.cons_append, hIH,
            List.filter_cons_of_pos (p := fun x => x != c) hane]

lemma noWS_filter_replace :
    ∀ fuel l, l.length ≤ fuel → '|' ∉ l →
      noWS ((replaceSeqF ['.', ' '] ['.', '|'] fuel l).filter fun x => x != '|')
        = noWS l := by
  intro fuel
  induction fuel with
  | zero =>
    intro l hl _
    have hnil : l = [] := List.eq_nil_of_length_eq_zero (Nat.le_zero.mp hl)
    subst hnil
    rfl
  | succ fuel ih =>
    intro l hl hbar
    cases l with
    | nil => rfl
    | cons a l =>
      by_cases h : List.isPrefixOf ['.', ' '] (a :: l)
      · have hpre : ['.', ' '] <+: (a :: l) := List.isPrefixOf_iff_prefix.mp h
        obtain ⟨rest, hrest⟩ := hpre
        have ha : a = '.' := by
          have := congrArg (fun m => m.head?) hrest
          simpa using this.symm
        have hlr : l = ' ' :: rest := by
          have := congrArg (fun m => m.tail) hrest
          simpa using this.symm
        rw [replaceSeqF, if_pos h]
        have hdrop : (a :: l).drop (['.', ' '].length) = rest := by
          rw [← hrest, List.drop_left]
        rw [hdrop]
        have hbr : '|' ∉ rest := fun hc =>
          hbar (by rw [hlr]; exact List.mem_cons_of_mem a (List.mem_cons_of_mem ' ' hc))
        have hrlen : rest.length ≤ fuel := by
          have := congrArg List.length hrest
          simp at this
          simp at hl
          omega
        subst ha
        subst hlr
        rw [List.cons_append, List.cons_append, List.nil_append,
          List.filter_cons_of_pos (by decide), List.filter_cons_of_neg (by decide)]
        rw [noWS_cons_of_not_ws '.' _ (by decide)]
        rw [ih rest hrlen hbr]
        rw [noWS_cons_of_not_ws '.' _ (by decide), noWS_cons_of_ws ' ' _ (by decide)]
      · have ha : ¬ a = '|' := fun hc => hbar (hc ▸ List.mem_cons_self a l)
        rw [replaceSeqF, if_neg h]
        have hane : (a != '|') = true := by simpa using ha
        rw [List.filter_cons_of_pos (p := fun x => x != '|') hane]
        have hbl : '|' ∉ l := fun hc => hbar (List.mem_cons_of_mem a hc)
        have hIH := ih l (by simpa using hl) hbl
        by_cases hwa : Char.isWhitespace a
        · rw [noWS_cons_of_ws a _ hwa, noWS_cons_of_ws a _ hwa]
          exact hIH
        · rw [noWS_cons_of_not_ws a _ hwa, noWS_cons_of_not_ws a _ hwa, hIH]

lemma sentence_content (p : List Char) (hbar : '|' ∉ p) :
    noWSJoin (sentenceSplit p) = noWS p := by
  rw [sentenceSplit, pySplit, ← noWS_flatten,
    flatten_splitSeqF_single '|' _ _ le_rfl, pyReplace,
    noWS_filter_replace p.length p le_rfl hbar]

lemma noWSJoin_singleton (x : List Char) : noWSJoin [x] = noWS x := by
  simp [noWSJoin]

lemma chunks1_noWS (st : List (List Char) × List Char) :
    noWSJoin (if st.2.isEmpty then st.1 else st.1 ++ [st.2])
      = noWSJoin st.1 ++ noWS st.2 := by
  by_cases he : st.2.isEmpty
  · rw [if_pos he]
    have h2 : st.2 = [] := by simpa [List.isEmpty_iff] using he
    rw [h2, show noWS ([] : List Char) = [] from rfl, List.append_nil]
  · rw [if_neg he, noWSJoin_append, noWSJoin_singleton]

lemma stepSentence_noWS (size : ℕ) (st : List (List Char) × List Char)
    (s : List Char) :
    noWSJoin (stepSentence size st s).1 ++ noWS (stepSentence size st s).2
      = (noWSJoin st.1 ++ noWS st.2) ++ noWS s := by
  rw [stepSentence]
  by_cases hc : st.2.length + s.length + 1 ≤ size
  · rw [if_pos hc]
    by_cases he : st.2.isEmpty
    · rw [if_pos he]
      have h2 : st.2 = [] := by simpa [List.isEmpty_iff] using he
      dsimp only
      rw [h2, show noWS ([] : List Char) = [] from rfl, List.append_nil]
    · rw [if_neg he]
      dsimp only
      rw [noWS_append, noWS_cons_of_ws ' ' _ (by decide), List.append_assoc]
  · rw [if_neg hc]
    dsimp only
    rw [chunks1_noWS]

lemma foldSentence_noWS (size : ℕ) :
    ∀ (ss : List (List Char)) (st : List (List Char) × List Char),
      noWSJoin (ss.foldl (stepSentence size) st).1
          ++ noWS (ss.foldl (stepSentence size) st).2
        = (noWSJoin st.1 ++ noWS st.2) ++ noWSJoin ss := by
  intro ss
  induction ss with
  | nil =>
    intro st
    simp [noWSJoin]
  | cons s ss ih =>
    intro st
    rw [List.foldl_cons, ih (stepSentence size st s), stepSentence_noWS,
      show noWSJoin (s :: ss) = noWS s ++ noWSJoin ss by simp [noWSJoin],
      List.append_assoc]

lemma stepParagraph_noWS (size : ℕ) (st : List (List Char) × List Char)
    (para0 : List Char) (hbar : '|' ∉ para0) :
    noWSJoin (stepParagraph size st para0).1 ++ noWS (stepParagraph size st para0).2
      = (noWSJoin st.1 ++ noWS st.2) ++ noWS para0 := by
  have hbar2 : '|' ∉ pyStrip para0 := fun hc => hbar (subset_pyStrip para0 '|' hc)
  rw [stepParagraph_eq]
  by_cases hpe : (pyStrip para0).isEmpty
  · rw [if_pos hpe]
    have h0 : pyStrip para0 = [] := by simpa [List.isEmpty_iff] using hpe
    have hnws : noWS para0 = [] := by
      rw [← noWS_pyStrip, h0]
      rfl
    rw [hnws, List.append_nil]
  · rw [if_neg hpe]
    by_cases hpack : st.2.length + (pyStrip para0).length + 2 ≤ size
    · rw [if_pos hpack]
      by_cases he : st.2.isEmpty
      · rw [if_pos he]
        have h2 : st.2 = [] := by simpa [List.isEmpty_iff] using he
        dsimp only
        rw [h2, noWS_pyStrip, show noWS ([] : List Char) = [] from rfl,
          List.append_nil]
      · rw [if_neg he]
        dsimp only
        rw [noWS_append, noWS_cons_of_ws '\n' _ (by decide),
          noWS_cons_of_ws '\n' _ (by decide), noWS_pyStrip, List.append_assoc]
    · rw [if_neg hpack]
      by_cases hbig : size < (pyStrip para0).length
      · rw [if_pos hbig]
        rw [foldSentence_noWS size (sentenceSplit (pyStrip para0)),
          sentence_content _ hbar2, noWS_pyStrip]
        congr 1
        dsimp only
        rw [chunks1_noWS, show noWS ([] : List Char) = [] from rfl,
          List.append_nil]
      · rw [if_neg hbig]
        dsimp only
        rw [noWS_pyStrip, chunks1_noWS]

lemma foldParagraph_noWS (size : ℕ) :
    ∀ (ps : List (List Char)) (st : List (List Char) × List Char),
      (∀ p ∈ ps, '|' ∉ p) →
      noWSJoin (ps.foldl (stepParagraph size) st).1
          ++ noWS (ps.foldl (stepParagraph size) st).2
        = (noWSJoin st.1 ++ noWS st.2) ++ noWSJoin ps := by
  intro ps
  induction ps with
  | nil =>
    intro st _
    simp [noWSJoin]
  | cons p ps ih =>
    intro st hbar
    rw [List.foldl_cons, ih _ (fun q hq => hbar q (List.mem_cons_of_mem p hq)),
      stepParagraph_noWS size st p (hbar p (List.mem_cons_self p ps)),
      show noWSJoin (p :: ps) = noWS p ++ noWSJoin ps by simp [noWSJoin],
      List.append_assoc]

/-- C3 (amended). For every input text that does not contain the sentinel
character `|` (which `_split_text` uses internally as a sentence separator and
silently deletes), the concatenation of all emitted chunks reproduces the
input exactly up to whitespace: ignoring the inserted paragraph and sentence
separators (and the original whitespace-only separator material), the chunk
sequence carries the paragraphs' full content in order; no paragraph is
dropped. -/
theorem chunk_roundtrip_amended (size : ℕ) (text : List Char)
    (hbar : '|' ∉ text) :
    noWS ((splitText size text).flatten) = noWS text := by
  have hpbar : ∀ p ∈ pySplit chunkSep text, '|' ∉ p := fun p hp hc =>
    hbar (subset_of_mem_splitSeqF chunkSep text.length text p hp '|' hc)
  have hfold := foldParagraph_noWS size (pySplit chunkSep text) ([], []) hpbar
  have hfold2 : noWSJoin ((pySplit chunkSep text).foldl (stepParagraph size) ([], [])).1
      ++ noWS ((pySplit chunkSep text).foldl (stepParagraph size) ([], [])).2
      = noWSJoin (pySplit chunkSep text) := by
    simpa [noWSJoin] using hfold
  have hfinal : noWSJoin (pySplit chunkSep text) = noWS text :=
    noWSJoin_splitSeqF chunkSep (by simp [chunkSep]) (by rfl) text.length text le_rfl
  rw [splitText_eq]
  by_cases he : ((pySplit chunkSep text).foldl (stepParagraph size) ([], [])).2.isEmpty
  · rw [if_pos he]
    have h2 : ((pySplit chunkSep text).foldl (stepParagraph size) ([], [])).2 = [] := by
      simpa [List.isEmpty_iff] using he
    rw [h2, show noWS ([] : List Char) = [] from rfl, List.append_nil] at hfold2
    rw [noWS_flatten, hfold2, hfinal]
  · rw [if_neg he]
    rw [noWS_flatten, noWSJoin_append, noWSJoin_singleton, hfold2, hfinal]

/-- C3 counterexample: the claim as stated fails.  The input `"aaa|bbb"` is a
single paragraph; with chunk size 5 it is sentence-split on the internal `|`
sentinel, the `|` character is deleted, and the concatenated chunks no longer
reproduce the paragraph even after ignoring all separator material. -/
theorem chunk_roundtrip_counterexample :
    ¬ noWS ((splitText 5 "aaa|bbb".data).flatten) = noWS "aaa|bbb".data := by
  decide

/-- C3 witness: a `|`-free document round-trips up to separators. -/
theorem chunk_roundtrip_amended_witness :
    '|' ∉ "ab. cd".data ∧
      noWS ((splitText 3 "ab. cd".data).flatten) = noWS "ab. cd".data :=
  ⟨by decide, chunk_roundtrip_amended 3 "ab. cd".data (by decide)⟩

instance : IsTrans (ℕ × ChunkDoc × ℝ) specRankRel := by
  constructor
  rintro a b c (h1 | ⟨he1, hi1⟩) (h2 | ⟨he2, hi2⟩)
  · exact Or.inl (lt_trans h2 h1)
  · exact Or.inl (he2 ▸ h1)
  · exact Or.inl (lt_of_lt_of_le h2 (le_of_eq he1.symm))
  · exact Or.inr ⟨he1.trans he2, le_trans hi1 hi2⟩

instance : IsTotal (ℕ × ChunkDoc × ℝ) specRankRel := by
  constructor
  intro a b
  rcases lt_trichotomy a.2.2 b.2.2 with h | h | h
  · exact Or.inr (Or.inl h)
  · rcases le_total a.1 b.1 with hi | hi
    · exact Or.inl (Or.inr ⟨h, hi⟩)
    · exact Or.inr (Or.inr ⟨h.symm, hi⟩)
  · exact Or.inl (Or.inl h)

lemma orderedInsert_dropIdx (a : ℕ × ChunkDoc × ℝ) (m : List (ℕ × ChunkDoc × ℝ))
    (hm : ∀ b ∈ m, a.1 < b.1) :
    (List.orderedInsert specRankRel a m).map Prod.snd
      = List.orderedInsert scoreRel a.2 (m.map Prod.snd) := by
  induction m with
  | nil => rfl
  | cons b m ih =>
    have hab : specRankRel a b ↔ scoreRel a.2 b.2 := by
      unfold specRankRel scoreRel
      constructor
      · rintro (h | ⟨heq, _⟩)
        · exact le_of_lt h
        · exact le_of_eq heq.symm
      · intro h
        rcases lt_or_eq_of_le h with h2 | h2
        · exact Or.inl h2
        · exact Or.inr ⟨h2.symm, le_of_lt (hm b (List.mem_cons_self b m))⟩
    rw [List.orderedInsert, List.map_cons, List.orderedInsert]
    by_cases h : specRankRel a b
    · rw [if_pos h, if_pos (hab.mp h)]
      rfl
    · rw [if_neg h, if_neg fun hc => h (hab.mpr hc), List.map_cons,
        ih fun c hc => hm c (List.mem_cons_of_mem b hc)]

lemma insertionSort_dropIdx :
    ∀ l : List (ℕ × ChunkDoc × ℝ), l.Pairwise (fun x y => x.1 < y.1) →
      (List.insertionSort specRankRel l).map Prod.snd
        = List.insertionSort scoreRel (l.map Prod.snd) := by
  intro l
  induction l with
  | nil => intro _; rfl
  | cons a l ih =>
    intro hp
    obtain ⟨ha, hp2⟩ := List.pairwise_cons.mp hp
    rw [List.insertionSort, List.map_cons, List.insertionSort, ← ih hp2]
    exact orderedInsert_dropIdx a _ fun b hb =>
      ha b ((List.perm_insertionSort specRankRel l).subset hb)

lemma le_fst_of_mem_enumFrom {α : Type} :
    ∀ (m : ℕ) (l : List α) (b : ℕ × α), b ∈ l.enumFrom m → m ≤ b.1 := by
  intro m l
  induction l generalizing m with
  | nil => intro b hb; cases hb
  | cons a l ih =>
    intro b hb
    rw [List.enumFrom_cons] at hb
    rcases List.mem_cons.mp hb with rfl | hb2
    · exact le_rfl
    · exact le_trans (Nat.le_succ m) (ih (m + 1) b hb2)

lemma pairwise_fst_lt_enumFrom {α : Type} :
    ∀ (n : ℕ) (l : List α), (l.enumFrom n).Pairwise fun x y => x.1 < y.1 := by
  intro n l
  induction l generalizing n with
  | nil => constructor
  | cons a l ih =>
    rw [List.enumFrom_cons]
    refine List.pairwise_cons.mpr ⟨?_, ih (n + 1)⟩
    intro b hb
    exact lt_of_lt_of_le (Nat.lt_succ_self n) (le_fst_of_mem_enumFrom (n + 1) l b hb)

lemma specScored_pairwise (docs : List ChunkDoc) (qt : List String) :
    (specScored docs qt).Pairwise fun x y => x.1 < y.1 := by
  rw [specScored]
  apply List.Pairwise.filter
  rw [List.pairwise_map]
  exact pairwise_fst_lt_enumFrom 0 docs

lemma enumFrom_filter_snd_map {α β : Type} (c : α → Bool) (f : α → β) :
    ∀ (n : ℕ) (l : List α),
      ((l.enumFrom n).filter fun p => c p.2).map (fun p => f p.2)
        = (l.filter c).map f := by
  intro n l
  induction l generalizing n with
  | nil => rfl
  | cons a l ih =>
    rw [List.enumFrom_cons]
    by_cases hc : c a
    · rw [List.filter_cons_of_pos hc,
        List.filter_cons_of_pos (p := fun p : ℕ × α => c p.2) hc,
        List.map_cons, List.map_cons, ih (n + 1)]
    · rw [List.filter_cons_of_neg hc,
        List.filter_cons_of_neg (p := fun p : ℕ × α => c p.2) hc,
        ih (n + 1)]

lemma scoredDocs_eq (docs : List ChunkDoc) (qt : List String) :
    scoredDocs docs qt = (specScored docs qt).map Prod.snd := by
  rw [scoredDocs, specScored, List.filter_map, List.filter_map, List.map_map]
  have := enumFrom_filter_snd_map
    (fun d : ChunkDoc => decide (0 < calculateRelevance qt d.content))
    (fun d : ChunkDoc => (d, calculateRelevance qt d.content)) 0 docs
  rw [show docs.enum = docs.enumFrom 0 from rfl]
  rw [show ((fun p : ℕ × ChunkDoc × ℝ => decide (0 < p.2.2)) ∘
      fun p : ℕ × ChunkDoc => (p.1, p.2, calculateRelevance qt p.2.content))
    = fun p : ℕ × ChunkDoc => decide (0 < calculateRelevance qt p.2.content) from rfl]
  rw [show (Prod.snd ∘ fun p : ℕ × ChunkDoc => (p.1, p.2, calculateRelevance qt p.2.content))
    = fun p : ℕ × ChunkDoc => (p.2, calculateRelevance qt p.2.content) from rfl]
  rw [show ((fun x : ChunkDoc × ℝ => decide (0 < x.2)) ∘
      fun d : ChunkDoc => (d, calculateRelevance qt d.content))
    = fun d : ChunkDoc => decide (0 < calculateRelevance qt d.content) from rfl]
  exact this.symm

lemma search_unfold (docs : List ChunkDoc) (query : String) (nResults : ℕ) :
    search docs query nResults =
      (if docs.isEmpty then emptySearchResult
       else if (tokenize query).isEmpty then emptySearchResult
       else if ((sortScored (scoredDocs docs (tokenize query))).take nResults).isEmpty
       then emptySearchResult
       else ⟨
        [((sortScored (scoredDocs docs (tokenize query))).take nResults).map
          fun p => p.1.content],
        [((sortScored (scoredDocs docs (tokenize query))).take nResults).map
          fun p => p.1.source],
        [((sortScored (scoredDocs docs (tokenize query))).take nResults).map
          fun p => 1 - p.2]⟩) := rfl

lemma search_eq_spec (docs : List ChunkDoc) (query : String) (k : ℕ)
    (hd : docs ≠ []) (hq : tokenize query ≠ []) :
    search docs query k = ⟨
      [((specRanking docs (tokenize query)).take k).map fun p => p.2.1.content],
      [((specRanking docs (tokenize query)).take k).map fun p => p.2.1.source],
      [((specRanking docs (tokenize query)).take k).map fun p => 1 - p.2.2]⟩ := by
  have hsort : sortScored (scoredDocs docs (tokenize query))
      = (specRanking docs (tokenize query)).map Prod.snd := by
    rw [sortScored, scoredDocs_eq,
      ← insertionSort_dropIdx _ (specScored_pairwise docs (tokenize query)),
      specRanking]
  have hde : docs.isEmpty = false := by
    simpa [List.isEmpty_iff] using hd
  have hqe : (tokenize query).isEmpty = false := by
    simpa [List.isEmpty_iff] using hq
  rw [search_unfold]
  rw [if_neg (by simp [hde]), if_neg (by simp [hqe])]
  have htop : (sortScored (scoredDocs docs (tokenize query))).take k
      = ((specRanking docs (tokenize query)).take k).map Prod.snd := by
    rw [hsort, List.map_take]
  rw [htop]
  by_cases hemp : ((specRanking docs (tokenize query)).take k).isEmpty
  · have h0 : (specRanking docs (tokenize query)).take k = [] := by
      simpa [List.isEmpty_iff] using hemp
    rw [h0]
    simp [emptySearchResult]
  · have h0 : (((specRanking docs (tokenize query)).take k).map Prod.snd).isEmpty = false := by
      rcases hx : (specRanking docs (tokenize query)).take k with _ | ⟨x, xs⟩
      · rw [hx] at hemp
        exact absurd rfl hemp
      · rfl
    rw [if_neg (by rw [h0]; exact Bool.false_ne_true)]
    refine SearchResult.ext ?_ ?_ ?_ <;> simp [List.map_map] <;> rfl

/-- C4: `search` behaviour.  (i) On an empty index or a query with no usable
tokens it returns the empty result without raising.  (ii) Every returned
document list holds at most `k` entries.  (iii) Otherwise the result is
exactly the top `k` of the specification ranking: every indexed chunk is
scored, zero-score chunks are discarded (`specScored`), and the survivors are
ordered by score descending with ties broken by insertion index
(`specRanking`), with contents, sources and `1 - score` distances read off in
that order.  (iv) The specification ranking is sorted under the
score-then-insertion-index order and is a permutation of the scored list. -/
theorem search_spec (docs : List ChunkDoc) (query : String) (k : ℕ) :
    ((docs = [] ∨ tokenize query = []) → search docs query k = emptySearchResult) ∧
    (∀ ds ∈ (search docs query k).documents, ds.length ≤ k) ∧
    (docs ≠ [] → tokenize query ≠ [] →
      search docs query k = ⟨
        [((specRanking docs (tokenize query)).take k).map fun p => p.2.1.content],
        [((specRanking docs (tokenize query)).take k).map fun p => p.2.1.source],
        [((specRanking docs (tokenize query)).take k).map fun p => 1 - p.2.2]⟩) ∧
    List.Sorted specRankRel (specRanking docs (tokenize query)) ∧
    (specRanking docs (tokenize query)).Perm (specScored docs (tokenize query)) := by
  have hempty : (docs = [] ∨ tokenize query = []) →
      search docs query k = emptySearchResult := by
    rintro (rfl | hq)
    · rw [search]
      rfl
    · rw [search]
      by_cases hd : docs.isEmpty
      · rw [if_pos hd]
      · rw [if_neg hd, if_pos (by simp [hq])]
  refine ⟨hempty, ?_, fun hd hq => search_eq_spec docs query k hd hq,
    List.sorted_insertionSort specRankRel _,
    List.perm_insertionSort specRankRel _⟩
  intro ds hds
  by_cases hd : docs = []
  · rw [hempty (Or.inl hd)] at hds
    rcases List.mem_cons.mp hds with rfl | h
    · simp
    · cases h
  · by_cases hq : tokenize query = []
    · rw [hempty (Or.inr hq)] at hds
      rcases List.mem_cons.mp hds with rfl | h
      · simp
      · cases h
    · rw [search_eq_spec docs query k hd hq] at hds
      rcases List.mem_cons.mp hds with rfl | h
      · rw [List.length_map]
        exact List.length_take_le k _
      · cases h

/-- C4 witness: search over the empty index returns the empty result. -/
theorem search_spec_witness :
    search [] "query" 3 = emptySearchResult :=
  (search_spec [] "query" 3).1 (Or.inl rfl)

end BriefRefiner
